import Mathlib

/-!
Verification of the picrocess image-processing library (Go).

The library stores an image as a struct with `Width, Height : uint` and
`Pixel : [][]RGBA` indexed `[x][y]` (outer index = column).  We embed it
shallowly: Go `uint` values become `Nat` (all Go values are `< 2^64`; the
only places where 64-bit wrap-around is observable are the `uint`
subtractions `Width-px`, `Height-1-x`, which we model with an explicit
wrapping subtraction `u64sub`).  Go `float64` arithmetic is modelled with
`ℚ`; every claim proved below only exercises paths where the float
computation is exact (alpha = 255/255 = 1, square roots compared by
squaring, brightness of an alpha-0 pixel), so the rational model agrees
with the IEEE semantics on those paths.  Writes through a slice index that
would panic in Go (index out of range) are modelled with `Option`.
-/

namespace Picrocess

/-! ## Generic list lemmas used throughout -/

theorem getD_set_self {α : Type} (l : List α) (a d : α) :
    ∀ (i : Nat), i < l.length → (l.set i a).getD i d = a := by
  induction l with
  | nil => intro i h; simp at h
  | cons b t ih =>
    intro i h
    cases i with
    | zero => simp
    | succ n =>
      simp only [List.set_cons_succ, List.getD_cons_succ]
      exact ih n (by simpa using h)

theorem getD_set_ne {α : Type} (l : List α) (a d : α) :
    ∀ (i j : Nat), i ≠ j → (l.set i a).getD j d = l.getD j d := by
  induction l with
  | nil => intro i j _; simp
  | cons b t ih =>
    intro i j hne
    cases i with
    | zero =>
      cases j with
      | zero => exact absurd rfl hne
      | succ m => simp
    | succ n =>
      cases j with
      | zero => simp
      | succ m =>
        simp only [List.set_cons_succ, List.getD_cons_succ]
        exact ih n m (fun h => hne (by rw [h]))

theorem set_beyond {α : Type} (l : List α) (a : α) :
    ∀ (i : Nat), l.length ≤ i → l.set i a = l := by
  induction l with
  | nil => intro i _; simp
  | cons b t ih =>
    intro i h
    cases i with
    | zero => simp at h
    | succ n => simp only [List.set_cons_succ, List.cons.injEq, true_and]
                exact ih n (by simpa using h)

theorem getD_append_left {α : Type} (l m : List α) (d : α) :
    ∀ (i : Nat), i < l.length → (l ++ m).getD i d = l.getD i d := by
  induction l with
  | nil => intro i h; simp at h
  | cons b t ih =>
    intro i h
    cases i with
    | zero => simp
    | succ n =>
      simp only [List.cons_append, List.getD_cons_succ]
      exact ih n (by simpa using h)

theorem getD_mem {α : Type} (l : List α) (d : α) :
    ∀ (i : Nat), i < l.length → l.getD i d ∈ l := by
  induction l with
  | nil => intro i h; simp at h
  | cons b t ih =>
    intro i h
    cases i with
    | zero => simp
    | succ n =>
      simp only [List.getD_cons_succ]
      exact List.mem_cons_of_mem _ (ih n (by simpa using h))

theorem getD_map {α β : Type} (f : α → β) (l : List α) (d : α) :
    ∀ (i : Nat), (l.map f).getD i (f d) = f (l.getD i d) := by
  induction l with
  | nil => intro i; simp
  | cons b t ih =>
    intro i
    cases i with
    | zero => simp
    | succ n => simp only [List.map_cons, List.getD_cons_succ]; exact ih n

theorem getD_replicate {α : Type} (a d : α) :
    ∀ (n i : Nat), i < n → (List.replicate n a).getD i d = a := by
  intro n
  induction n with
  | zero => intro i h; simp at h
  | succ m ih =>
    intro i h
    cases i with
    | zero => simp [List.replicate]
    | succ k => simpa [List.replicate] using ih k (by omega)

theorem getD_append_length {α : Type} (a d : α) :
    ∀ (l : List α), (l ++ [a]).getD l.length d = a := by
  intro l
  induction l with
  | nil => simp
  | cons b t ih => simp only [List.cons_append, List.length_cons, List.getD_cons_succ]; exact ih

theorem getD_map_range {α : Type} (f : Nat → α) (d : α) (n : Nat) :
    ∀ (i : Nat), i < n → ((List.range n).map f).getD i d = f i := by
  induction n with
  | zero => intro i h; simp at h
  | succ m ih =>
    intro i h
    rcases Nat.lt_succ_iff_lt_or_eq.mp h with h2 | h2
    · rw [List.range_succ, List.map_append, getD_append_left]
      · exact ih i h2
      · simpa using h2
    · subst h2
      rw [List.range_succ, List.map_append]
      have hlen : ((List.range i).map f).length = i := by simp
      have h3 := getD_append_length (f i) d ((List.range i).map f)
      rwa [hlen] at h3

theorem exists_last_split {α : Type} [DecidableEq α] {a : α} :
    ∀ {l : List α}, a ∈ l → ∃ l1 l2, l = l1 ++ a :: l2 ∧ a ∉ l2 := by
  intro l h
  induction l with
  | nil => cases h
  | cons b t ih =>
    by_cases hm : a ∈ t
    · obtain ⟨l1, l2, heq, hn⟩ := ih hm
      exact ⟨b :: l1, l2, by rw [heq]; rfl, hn⟩
    · have hab : a = b := by
        rcases List.mem_cons.mp h with h1 | h2
        · exact h1
        · exact absurd h2 hm
      exact ⟨[], t, by rw [hab]; rfl, hm⟩

/-! ## Color model (`RGBA`, `Brightness`) -/

/-- `type RGBA struct { R, G, B, A uint8 }`.  Channel values are 8-bit in Go
(0..255); we model them as `Nat` — every theorem below holds for all `Nat`
values, so nothing depends on the missing upper bound. -/
structure RGBA where
  R : Nat
  G : Nat
  B : Nat
  A : Nat
deriving DecidableEq, Repr

/-- The zero value `RGBA{0, 0, 0, 0}` (transparent black). -/
def transparent : RGBA := ⟨0, 0, 0, 0⟩

/-- Go `uint8(q)` / `int(q)` for a nonnegative float: truncation.  All values
this is applied to in the proofs are nonnegative, where truncation = floor. -/
def toU8 (q : ℚ) : Nat := (⌊q⌋).toNat

/-- `func (c RGBA) Brightness() int`: 0 for alpha 0, otherwise
`int(0.299*r + 0.587*g + 0.114*b) * a / 255` (Go `int` division truncates;
all quantities are nonnegative).  The float weights are modelled as exact
rationals; the only claim that depends on `Brightness` uses the alpha-0
early return, where the two agree. -/
def RGBA.Brightness (c : RGBA) : Nat :=
  if c.A = 0 then 0
  else toU8 ((299 / 1000 : ℚ) * c.R + (587 / 1000 : ℚ) * c.G + (114 / 1000 : ℚ) * c.B)
    * c.A / 255

/-! ## Geometry value types -/

/-- `type Rect struct { W1, H1, W2, H2 uint }` -/
structure Rect where
  W1 : Nat
  H1 : Nat
  W2 : Nat
  H2 : Nat
deriving DecidableEq, Repr

/-- `type Offset struct { W, H uint }` -/
structure Offset where
  W : Nat
  H : Nat
deriving DecidableEq, Repr

/-- 64-bit wrapping subtraction: Go `a - b` on `uint` for `a, b < 2^64`. -/
def u64sub (a b : Nat) : Nat := if b ≤ a then a - b else a + 2 ^ 64 - b

@[simp] theorem u64sub_zero (a : Nat) : u64sub a 0 = a := by simp [u64sub]

/-! ## The pixel buffer -/

/-- The `Pixel [][]RGBA` grid, outer index = x (column), inner index = y. -/
abbrev Grid := List (List RGBA)

/-- `type Image struct { Width, Height uint; Pixel [][]RGBA }` -/
structure Image where
  width : Nat
  height : Nat
  pixel : Grid
deriving DecidableEq, Repr

/-- Well-formedness: the grid has exactly `width` columns, each of exactly
`height` entries (phrased via the column-length profile). -/
def Image.WF (img : Image) : Prop :=
  img.pixel.map List.length = List.replicate img.width img.height

instance (img : Image) : Decidable img.WF := by unfold Image.WF; infer_instance

theorem Image.WF.length {img : Image} (h : img.WF) : img.pixel.length = img.width := by
  have h2 := congrArg List.length h
  simpa using h2

theorem Image.WF.col_length {img : Image} (h : img.WF) {x : Nat} (hx : x < img.width) :
    (img.pixel.getD x []).length = img.height := by
  have h2 : (img.pixel.map List.length).getD x ([] : List RGBA).length
      = (img.pixel.getD x []).length := getD_map List.length img.pixel [] x
  rw [h, getD_replicate _ _ _ _ hx] at h2
  exact h2.symm

theorem Image.WF.mem_col {img : Image} (h : img.WF) {col : List RGBA}
    (hc : col ∈ img.pixel) : col.length = img.height := by
  have : col.length ∈ img.pixel.map List.length := List.mem_map_of_mem _ hc
  rw [h] at this
  exact List.eq_of_mem_replicate this

/-- `func (i *Image) At(x, y uint) RGBA` on an explicit grid:
out-of-range reads return transparent black. -/
def atG (w h : Nat) (g : Grid) (x y : Nat) : RGBA :=
  if x < w ∧ y < h then (g.getD x []).getD y transparent else transparent

/-- `func (i *Image) At(x, y uint) RGBA` -/
def Image.At (img : Image) (x y : Nat) : RGBA :=
  atG img.width img.height img.pixel x y

/-- In-range in-place grid write `g[x][y] = c` (the callers below only reach
this with the index present, matching the Go code, which would panic
otherwise). -/
def setGrid (g : Grid) (x y : Nat) (c : RGBA) : Grid :=
  g.set x ((g.getD x []).set y c)

/-- `func (i *Image) Set(x, y uint, c RGBA)`: no-op when out of range. -/
def Image.Set (img : Image) (x y : Nat) (c : RGBA) : Image :=
  if x < img.width ∧ y < img.height then ⟨img.width, img.height, setGrid img.pixel x y c⟩
  else img

/-- `func NewImage(w, h uint, color RGBA) *Image`: a `w × h` grid with every
pixel `color` (column-major, as in the source). -/
def NewImage (w h : Nat) (color : RGBA) : Image :=
  ⟨w, h, List.replicate w (List.replicate h color)⟩

theorem shape_setGrid (g : Grid) (c : RGBA) :
    ∀ (x : Nat) (y : Nat), (setGrid g x y c).map List.length = g.map List.length := by
  induction g with
  | nil => intro x y; simp [setGrid]
  | cons col t ih =>
    intro x y
    cases x with
    | zero => simp [setGrid]
    | succ n =>
      simp only [setGrid, List.getD_cons_succ, List.set_cons_succ, List.map_cons,
        List.cons.injEq, true_and]
      exact ih n y

@[simp] theorem Set_width (img : Image) (x y : Nat) (c : RGBA) :
    (img.Set x y c).width = img.width := by
  unfold Image.Set; split <;> rfl

@[simp] theorem Set_height (img : Image) (x y : Nat) (c : RGBA) :
    (img.Set x y c).height = img.height := by
  unfold Image.Set; split <;> rfl

theorem WF_Set {img : Image} (h : img.WF) (x y : Nat) (c : RGBA) :
    (img.Set x y c).WF := by
  unfold Image.Set
  split
  · unfold Image.WF at h ⊢
    simpa [shape_setGrid] using h
  · exact h

theorem At_Set_self {img : Image} (h : img.WF) {x y : Nat} (c : RGBA)
    (hx : x < img.width) (hy : y < img.height) :
    (img.Set x y c).At x y = c := by
  unfold Image.Set
  rw [if_pos ⟨hx, hy⟩]
  unfold Image.At atG
  rw [if_pos ⟨hx, hy⟩]
  simp only [setGrid]
  rw [getD_set_self _ _ _ x (h.length ▸ hx)]
  exact getD_set_self _ _ _ y ((h.col_length hx) ▸ hy)

theorem At_Set_ne (img : Image) (x y a b : Nat) (c : RGBA)
    (hne : (a, b) ≠ (x, y)) :
    (img.Set x y c).At a b = img.At a b := by
  unfold Image.Set
  split
  case isFalse => rfl
  case isTrue hin =>
  unfold Image.At atG
  simp only
  split
  case isFalse => rfl
  case isTrue hab =>
  by_cases hax : a = x
  · subst hax
    have hby : b ≠ y := fun h => hne (by rw [h])
    simp only [setGrid]
    by_cases hlen : a < img.pixel.length
    · rw [getD_set_self _ _ _ a hlen]
      exact getD_set_ne _ _ _ y b (Ne.symm hby)
    · rw [set_beyond _ _ a (by omega)]
  · simp only [setGrid]
    rw [getD_set_ne _ _ _ x a (fun h => hax h.symm)]

/-! ## Compositor (`Overlay`) -/

/-- The blended color of the final `Overlay` branch:
`out = (1-a)*dst + a*src` per channel with `a = src.A/255`, output alpha =
source alpha.  Go `float64` is modelled by `ℚ`; on the only path a claim
relies on (`src.A = 255`, hence `a = 1` exactly) the float computation is
exact, so the models agree. -/
def blend (dp sp : RGBA) : RGBA :=
  ⟨toU8 ((1 - (sp.A : ℚ) / 255) * dp.R + (sp.A : ℚ) / 255 * sp.R),
   toU8 ((1 - (sp.A : ℚ) / 255) * dp.G + (sp.A : ℚ) / 255 * sp.G),
   toU8 ((1 - (sp.A : ℚ) / 255) * dp.B + (sp.A : ℚ) / 255 * sp.B),
   sp.A⟩

theorem blend_opaque (dp sp : RGBA) (h : sp.A = 255) : blend dp sp = sp := by
  cases sp with
  | mk R G B A =>
  simp only at h
  subst h
  unfold blend toU8
  norm_num

/-- The iteration domain of `for x := range g { for y := range g[x] { ... } }`. -/
def gridCells (g : Grid) : List (Nat × Nat) :=
  (List.range g.length).flatMap
    (fun x => (List.range ((g.getD x []).length)).map (fun y => (x, y)))

theorem mem_gridCells {g : Grid} {x y : Nat} :
    (x, y) ∈ gridCells g ↔ x < g.length ∧ y < (g.getD x []).length := by
  unfold gridCells
  simp only [List.mem_flatMap, List.mem_map, List.mem_range, Prod.mk.injEq]
  constructor
  · rintro ⟨a, ha, b, hb, hax, hby⟩
    subst hax; subst hby
    exact ⟨ha, hb⟩
  · rintro ⟨hx, hy⟩
    exact ⟨x, hx, y, hy, rfl, rfl⟩

/-- One iteration of the `Overlay` double loop at source cell `p`:
read the source pixel and the current destination pixel, pick the branch,
write the result (the destination coordinate is `(o.W+x, o.H+y)`; Go `uint`
addition cannot wrap here because slice lengths and `uint` values keep
everything below `2^64`). -/
def overlayStep (src : Image) (o : Offset) (acc : Image) (p : Nat × Nat) : Image :=
  let pixel := src.At p.1 p.2
  let destPixel := acc.At (o.W + p.1) (o.H + p.2)
  let outc :=
    if pixel.A = 255 ∧ destPixel.A = 255 then pixel
    else if pixel.A = 255 ∧ destPixel.A = 0 then pixel
    else if pixel.A = 0 ∧ destPixel.A = 255 then destPixel
    else blend destPixel pixel
  acc.Set (o.W + p.1) (o.H + p.2) outc

/-- `func (i *Image) Overlay(i2 *Image, o Offset)` -/
def Image.Overlay (dst src : Image) (o : Offset) : Image :=
  (gridCells src.pixel).foldl (overlayStep src o) dst

theorem overlayStep_width (src : Image) (o : Offset) (acc : Image) (p : Nat × Nat) :
    (overlayStep src o acc p).width = acc.width := by
  unfold overlayStep
  simp

theorem overlayStep_height (src : Image) (o : Offset) (acc : Image) (p : Nat × Nat) :
    (overlayStep src o acc p).height = acc.height := by
  unfold overlayStep
  simp

theorem overlayStep_WF (src : Image) (o : Offset) {acc : Image} (h : acc.WF)
    (p : Nat × Nat) : (overlayStep src o acc p).WF := by
  unfold overlayStep
  exact WF_Set h _ _ _

theorem overlay_foldl_width (src : Image) (o : Offset) :
    ∀ (l : List (Nat × Nat)) (acc : Image),
      (l.foldl (overlayStep src o) acc).width = acc.width := by
  intro l
  induction l with
  | nil => intro acc; rfl
  | cons p t ih =>
    intro acc
    rw [List.foldl_cons, ih, overlayStep_width]

theorem overlay_foldl_height (src : Image) (o : Offset) :
    ∀ (l : List (Nat × Nat)) (acc : Image),
      (l.foldl (overlayStep src o) acc).height = acc.height := by
  intro l
  induction l with
  | nil => intro acc; rfl
  | cons p t ih =>
    intro acc
    rw [List.foldl_cons, ih, overlayStep_height]

theorem overlay_foldl_WF (src : Image) (o : Offset) :
    ∀ (l : List (Nat × Nat)) {acc : Image}, acc.WF →
      (l.foldl (overlayStep src o) acc).WF := by
  intro l
  induction l with
  | nil => intro acc h; exact h
  | cons p t ih =>
    intro acc h
    rw [List.foldl_cons]
    exact ih (overlayStep_WF src o h p)

theorem overlay_foldl_At_untouched (src : Image) (o : Offset) (a b : Nat) :
    ∀ (l : List (Nat × Nat)) (acc : Image),
      (∀ p ∈ l, ¬(o.W + p.1 = a ∧ o.H + p.2 = b)) →
      (l.foldl (overlayStep src o) acc).At a b = acc.At a b := by
  intro l
  induction l with
  | nil => intro acc _; rfl
  | cons p t ih =>
    intro acc hp
    rw [List.foldl_cons, ih _ (fun q hq => hp q (List.mem_cons_of_mem _ hq))]
    unfold overlayStep
    apply At_Set_ne
    intro hcontra
    rw [Prod.mk.injEq] at hcontra
    exact hp p (List.mem_cons_self _ _) ⟨hcontra.1.symm, hcontra.2.symm⟩

/-! ## Geometry engine (`Resize`, `Crop`) -/

/-- The new grid built by `Resize`: nearest-neighbor, source coordinate
`(x*oldw/w, y*oldh/h)` with integer (floor) division, reading through the
bounds-checked getter. -/
def resizeGrid (oldw oldh : Nat) (g : Grid) (w h : Nat) : Grid :=
  (List.range w).map
    (fun x => (List.range h).map (fun y => atG oldw oldh g (x * oldw / w) (y * oldh / h)))

/-- `func (i *Image) Resize(w, h uint)` (the mutation is modelled by
returning the updated image). -/
def Image.Resize (img : Image) (w h : Nat) : Image :=
  ⟨w, h, resizeGrid img.width img.height img.pixel w h⟩

/-- `func (i *Image) Crop(r Rect) *Image`: a `Dx × Dy` buffer sourced at
offset `(W1, H1)`; `Dx = W2 - W1` and `Dy = H2 - H1` are `uint`
subtractions, hence wrapping. -/
def Image.Crop (img : Image) (r : Rect) : Image :=
  ⟨u64sub r.W2 r.W1, u64sub r.H2 r.H1,
   (List.range (u64sub r.W2 r.W1)).map
     (fun x => (List.range (u64sub r.H2 r.H1)).map
       (fun y => img.At (r.W1 + x) (r.H1 + y)))⟩

theorem WF_NewImage (w h : Nat) (c : RGBA) : (NewImage w h c).WF := by
  unfold NewImage Image.WF
  simp

theorem WF_Resize (img : Image) (w h : Nat) : (img.Resize w h).WF := by
  unfold Image.Resize Image.WF resizeGrid
  simp only [List.map_map]
  have hco : (List.length ∘ fun x => (List.range h).map
      (fun y => atG img.width img.height img.pixel (x * img.width / w) (y * img.height / h)))
      = fun _ => h := funext fun x => by simp
  rw [hco, List.map_const', List.length_range]

theorem WF_Crop (img : Image) (r : Rect) : (img.Crop r).WF := by
  unfold Image.Crop Image.WF
  simp only [List.map_map]
  have hco : (List.length ∘ fun x => (List.range (u64sub r.H2 r.H1)).map
      (fun y => img.At (r.W1 + x) (r.H1 + y)))
      = fun _ => u64sub r.H2 r.H1 := funext fun x => by simp
  rw [hco, List.map_const', List.length_range]

/-! ## Rounded corners (`Round`) -/

/-- One iteration of the `Round` double loop at cell `(x, y)`.
The skip condition and the corner-center selection replicate the source
exactly, including its use of `i.Width-px` (a wrapping `uint` subtraction)
in the second disjunct and in the `y`-branches where `i.Height-px` might
have been expected.  The float comparison `sqrt(d) > px` is modelled by the
equivalent `d > px^2` (both sides nonnegative). -/
def roundCenter (acc : Image) (px : Nat) (x y : Nat) : ℚ × ℚ :=
  if x ≤ px ∧ y ≤ px then ((px : ℚ), (px : ℚ))
  else if x ≤ px ∧ u64sub acc.width px < y then ((px : ℚ), (u64sub acc.height px : ℚ))
  else if u64sub acc.width px ≤ x ∧ y ≤ px then ((u64sub acc.width px : ℚ), (px : ℚ))
  else ((u64sub acc.width px : ℚ), (u64sub acc.height px : ℚ))

def roundStep (acc : Image) (px : Nat) (x y : Nat) : Image :=
  if (px ≤ x ∧ x ≤ u64sub acc.width px) ∨ (px ≤ y ∧ y ≤ u64sub acc.width px) then acc
  else if (px : ℚ) ^ 2 <
      ((x : ℚ) - (roundCenter acc px x y).1) ^ 2 + ((y : ℚ) - (roundCenter acc px x y).2) ^ 2
    then acc.Set x y transparent
  else acc

/-- `func (i *Image) Round(px uint)` -/
def Image.Round (img : Image) (px : Nat) : Image :=
  (gridCells img.pixel).foldl (fun acc p => roundStep acc px p.1 p.2) img

theorem roundStep_zero (acc : Image) (x y : Nat) : roundStep acc 0 x y = acc := by
  unfold roundStep
  by_cases h1 : (0 ≤ x ∧ x ≤ u64sub acc.width 0) ∨ (0 ≤ y ∧ y ≤ u64sub acc.width 0)
  · rw [if_pos h1]
  · rw [if_neg h1]
    have hxw : acc.width < x := by
      rcases Nat.lt_or_ge acc.width x with h | h
      · exact h
      · exact absurd (Or.inl ⟨Nat.zero_le x, by simpa using h⟩) h1
    have hset : acc.Set x y transparent = acc := by
      unfold Image.Set
      rw [if_neg (by omega)]
    by_cases h2 : ((0 : Nat) : ℚ) ^ 2 <
        ((x : ℚ) - (roundCenter acc 0 x y).1) ^ 2 + ((y : ℚ) - (roundCenter acc 0 x y).2) ^ 2
    · rw [if_pos h2, hset]
    · rw [if_neg h2]

theorem roundStep_WF {acc : Image} (h : acc.WF) (px x y : Nat) :
    (roundStep acc px x y).WF := by
  unfold roundStep
  by_cases h1 : (px ≤ x ∧ x ≤ u64sub acc.width px) ∨ (px ≤ y ∧ y ≤ u64sub acc.width px)
  · rw [if_pos h1]; exact h
  · rw [if_neg h1]
    by_cases h2 : (px : ℚ) ^ 2 <
        ((x : ℚ) - (roundCenter acc px x y).1) ^ 2 + ((y : ℚ) - (roundCenter acc px x y).2) ^ 2
    · rw [if_pos h2]; exact WF_Set h _ _ _
    · rw [if_neg h2]; exact h

/-! ## Rotations and flips -/

/-- The iteration domain of `for x := 0; x < w; x++ { for y := 0; y < h; y++ }`. -/
def dimCells (w h : Nat) : List (Nat × Nat) :=
  (List.range w).flatMap (fun x => (List.range h).map (fun y => (x, y)))

/-- A grid write `g[r][c] = v` that fails (Go: panics with an
index-out-of-range) when the position does not exist. -/
def setCellChecked (g : Grid) (r c : Nat) (v : RGBA) : Option Grid :=
  if r < g.length ∧ c < (g.getD r []).length then some (setGrid g r c v) else none

/-- The body of `Rotate90`: a fresh `Height × Width` grid (zero-valued, i.e.
transparent), then `newPixel[y][Height-1-x] = At(x, y)` for every cell of
the old grid.  The column index `Height-1-x` is computed with wrapping
`uint` arithmetic and is out of range whenever `Height ≠ Width` (the source
bug), which we surface as `none`. -/
def rotate90Grid (w h : Nat) (g : Grid) : Option Grid :=
  (gridCells g).foldl
    (fun acc p => acc.bind
      (fun ng => setCellChecked ng p.2 (u64sub (u64sub h 1) p.1) (atG w h g p.1 p.2)))
    (some (List.replicate h (List.replicate w transparent)))

/-- `func (i *Image) Rotate90()`: dimensions swap; `none` models the panic. -/
def Image.Rotate90 (img : Image) : Option Image :=
  (rotate90Grid img.width img.height img.pixel).map
    (fun g2 => ⟨img.height, img.width, g2⟩)

/-- The body of `RotateMinus90`: a fresh `Height × Width` grid, then
`newPixel[Height-1-y][x] = At(x, y)` for `x < Width`, `y < Height`; these
writes are always in range. -/
def rotateM90Grid (w h : Nat) (g : Grid) : Grid :=
  (dimCells w h).foldl
    (fun ng p => setGrid ng (u64sub (u64sub h 1) p.2) p.1 (atG w h g p.1 p.2))
    (List.replicate h (List.replicate w transparent))

/-- `func (i *Image) RotateMinus90()` -/
def Image.RotateMinus90 (img : Image) : Image :=
  ⟨img.height, img.width, rotateM90Grid img.width img.height img.pixel⟩

/-- The body of `FlipVertical`: for `x < Width`, `y < Height/2`, read the
top and bottom pixels (both reads happen before either write, as in the
source) and swap them in place. -/
def flipVerticalGrid (w h : Nat) (g : Grid) : Grid :=
  (dimCells w (h / 2)).foldl
    (fun ng p =>
      setGrid (setGrid ng p.1 p.2 (atG w h ng p.1 (u64sub (u64sub h 1) p.2)))
        p.1 (u64sub (u64sub h 1) p.2) (atG w h ng p.1 p.2))
    g

/-- `func (i *Image) FlipVertical()` -/
def Image.FlipVertical (img : Image) : Image :=
  ⟨img.width, img.height, flipVerticalGrid img.width img.height img.pixel⟩

theorem shape_foldl {β : Type} (step : Grid → β → Grid)
    (hstep : ∀ g p, (step g p).map List.length = g.map List.length) :
    ∀ (l : List β) (g : Grid), (l.foldl step g).map List.length = g.map List.length := by
  intro l
  induction l with
  | nil => intro g; rfl
  | cons p t ih =>
    intro g
    rw [List.foldl_cons, ih, hstep]

theorem shape_foldl_option {β : Type} (step : Grid → β → Option Grid)
    (hstep : ∀ g p g2, step g p = some g2 → g2.map List.length = g.map List.length) :
    ∀ (l : List β) (o : Option Grid) (g2 : Grid),
      l.foldl (fun acc p => acc.bind (fun ng => step ng p)) o = some g2 →
      ∃ g0, o = some g0 ∧ g2.map List.length = g0.map List.length := by
  intro l
  induction l with
  | nil =>
    intro o g2 h
    exact ⟨g2, h, rfl⟩
  | cons p t ih =>
    intro o g2 h
    rw [List.foldl_cons] at h
    obtain ⟨g1, hg1, hshape⟩ := ih _ _ h
    rcases o with _ | g0
    · simp at hg1
    · refine ⟨g0, rfl, ?_⟩
      have hg1b : step g0 p = some g1 := hg1
      rw [hshape, hstep g0 p g1 hg1b]

theorem setCellChecked_shape (g : Grid) (r c : Nat) (v : RGBA) (g2 : Grid)
    (h : setCellChecked g r c v = some g2) :
    g2.map List.length = g.map List.length := by
  unfold setCellChecked at h
  split at h
  · cases h
    exact shape_setGrid g v r c
  · cases h

theorem rotate90Grid_shape (w h : Nat) (g g2 : Grid)
    (hr : rotate90Grid w h g = some g2) :
    g2.map List.length = List.replicate h w := by
  unfold rotate90Grid at hr
  obtain ⟨g0, hg0, hshape⟩ := shape_foldl_option
    (fun (ng : Grid) (p : Nat × Nat) =>
      setCellChecked ng p.2 (u64sub (u64sub h 1) p.1) (atG w h g p.1 p.2))
    (fun (ng : Grid) (p : Nat × Nat) (g3 : Grid) hg3 =>
      setCellChecked_shape ng p.2 _ _ g3 hg3) _ _ _ hr
  rw [hshape]
  cases hg0
  simp

theorem rotateM90Grid_shape (w h : Nat) (g : Grid) :
    (rotateM90Grid w h g).map List.length = List.replicate h w := by
  unfold rotateM90Grid
  rw [shape_foldl _ (fun (ng : Grid) (p : Nat × Nat) => shape_setGrid ng _ _ _)]
  simp

theorem flipVerticalGrid_shape (w h : Nat) (g : Grid) :
    (flipVerticalGrid w h g).map List.length = g.map List.length := by
  unfold flipVerticalGrid
  exact shape_foldl _ (fun (ng : Grid) (p : Nat × Nat) => by rw [shape_setGrid, shape_setGrid]) _ _

theorem WF_RotateMinus90 (img : Image) : img.RotateMinus90.WF := by
  unfold Image.RotateMinus90 Image.WF
  exact rotateM90Grid_shape _ _ _

theorem WF_Rotate90 (img img2 : Image) (h : img.Rotate90 = some img2) : img2.WF := by
  unfold Image.Rotate90 at h
  rcases hr : rotate90Grid img.width img.height img.pixel with _ | g2
  · rw [hr] at h; cases h
  · rw [hr] at h
    have h2 : (⟨img.height, img.width, g2⟩ : Image) = img2 := by
      have h3 : some (⟨img.height, img.width, g2⟩ : Image) = some img2 := h
      exact Option.some.inj h3
    rw [← h2]
    unfold Image.WF
    exact rotate90Grid_shape _ _ _ _ hr

theorem WF_FlipVertical {img : Image} (h : img.WF) : img.FlipVertical.WF := by
  unfold Image.FlipVertical Image.WF
  rw [Image.WF] at h
  exact (flipVerticalGrid_shape _ _ _).trans h

/-! ## Rasterizer (`Line`) -/

/-- `func pointToLineDistance(x1, y1, x2, y2, px, py float64) float64`,
with the final `math.Sqrt` removed: this returns the SQUARE of the distance
(each branch of the source computes `math.Sqrt(dx*dx + dy*dy)`; we keep
`dx*dx + dy*dy`).  Comparisons of the distance against a nonnegative bound
`r` are then modelled by comparing this value against `r^2`. -/
def pointToLineDistSq (x1 y1 x2 y2 px py : ℚ) : ℚ :=
  let vx := x2 - x1
  let vy := y2 - y1
  let lenSq := vx * vx + vy * vy
  if lenSq = 0 then
    (px - x1) * (px - x1) + (py - y1) * (py - y1)
  else
    let wx := px - x1
    let wy := py - y1
    let t := (wx * vx + wy * vy) / lenSq
    if t < 0 then wx * wx + wy * wy
    else if 1 < t then (px - x2) * (px - x2) + (py - y2) * (py - y2)
    else
      let projX := x1 + t * vx
      let projY := y1 + t * vy
      (px - projX) * (px - projX) + (py - projY) * (py - projY)

/-- The test `distance <= thickness/2` of `Line`.  Since
`distance = sqrt(distSq)` with `distSq ≥ 0`, the test is equivalent to
`0 ≤ thickness/2 ∧ distSq ≤ (thickness/2)^2`. -/
def lineCond (r : Rect) (thickness : ℚ) (x y : Nat) : Prop :=
  0 ≤ thickness / 2 ∧
    pointToLineDistSq r.W1 r.H1 r.W2 r.H2 x y ≤ (thickness / 2) ^ 2

instance (r : Rect) (t : ℚ) (x y : Nat) : Decidable (lineCond r t x y) := by
  unfold lineCond
  infer_instance

/-- `func (i *Image) Line(r Rect, c RGBA, thickness float64)` -/
def Image.Line (img : Image) (r : Rect) (c : RGBA) (thickness : ℚ) : Image :=
  (gridCells img.pixel).foldl
    (fun acc p => if lineCond r thickness p.1 p.2 then acc.Set p.1 p.2 c else acc) img

theorem lineStep_width (r : Rect) (t : ℚ) (c : RGBA) (acc : Image) (p : Nat × Nat) :
    (if lineCond r t p.1 p.2 then acc.Set p.1 p.2 c else acc).width = acc.width := by
  split <;> simp

theorem lineStep_height (r : Rect) (t : ℚ) (c : RGBA) (acc : Image) (p : Nat × Nat) :
    (if lineCond r t p.1 p.2 then acc.Set p.1 p.2 c else acc).height = acc.height := by
  split <;> simp

theorem lineStep_WF (r : Rect) (t : ℚ) (c : RGBA) {acc : Image} (h : acc.WF)
    (p : Nat × Nat) :
    (if lineCond r t p.1 p.2 then acc.Set p.1 p.2 c else acc).WF := by
  split
  · exact WF_Set h _ _ _
  · exact h

theorem line_foldl_width (r : Rect) (t : ℚ) (c : RGBA) :
    ∀ (l : List (Nat × Nat)) (acc : Image),
      (l.foldl (fun acc p => if lineCond r t p.1 p.2 then acc.Set p.1 p.2 c else acc)
        acc).width = acc.width := by
  intro l
  induction l with
  | nil => intro acc; rfl
  | cons p tl ih =>
    intro acc
    rw [List.foldl_cons, ih, lineStep_width]

theorem line_foldl_height (r : Rect) (t : ℚ) (c : RGBA) :
    ∀ (l : List (Nat × Nat)) (acc : Image),
      (l.foldl (fun acc p => if lineCond r t p.1 p.2 then acc.Set p.1 p.2 c else acc)
        acc).height = acc.height := by
  intro l
  induction l with
  | nil => intro acc; rfl
  | cons p tl ih =>
    intro acc
    rw [List.foldl_cons, ih, lineStep_height]

theorem line_foldl_WF (r : Rect) (t : ℚ) (c : RGBA) :
    ∀ (l : List (Nat × Nat)) {acc : Image}, acc.WF →
      (l.foldl (fun acc p => if lineCond r t p.1 p.2 then acc.Set p.1 p.2 c else acc)
        acc).WF := by
  intro l
  induction l with
  | nil => intro acc h; exact h
  | cons p tl ih =>
    intro acc h
    rw [List.foldl_cons]
    exact ih (lineStep_WF r t c h p)

theorem line_foldl_At (r : Rect) (t : ℚ) (c : RGBA) :
    ∀ (l : List (Nat × Nat)) (acc : Image), acc.WF →
      (∀ p ∈ l, p.1 < acc.width ∧ p.2 < acc.height) →
      ∀ a b : Nat,
        (l.foldl (fun acc p => if lineCond r t p.1 p.2 then acc.Set p.1 p.2 c else acc)
          acc).At a b =
        if (a, b) ∈ l ∧ lineCond r t a b then c else acc.At a b := by
  intro l
  induction l with
  | nil =>
    intro acc _ _ a b
    simp
  | cons p tl ih =>
    intro acc hWF hl a b
    have hstepWF := lineStep_WF r t c hWF p
    have hdims : ∀ q ∈ tl,
        q.1 < (if lineCond r t p.1 p.2 then acc.Set p.1 p.2 c else acc).width ∧
        q.2 < (if lineCond r t p.1 p.2 then acc.Set p.1 p.2 c else acc).height := by
      intro q hq
      rw [lineStep_width, lineStep_height]
      exact hl q (List.mem_cons_of_mem _ hq)
    rw [List.foldl_cons, ih _ hstepWF hdims a b]
    by_cases h1 : (a, b) ∈ tl ∧ lineCond r t a b
    · rw [if_pos h1, if_pos ⟨List.mem_cons_of_mem _ h1.1, h1.2⟩]
    · rw [if_neg h1]
      by_cases h2 : (a, b) ∈ p :: tl ∧ lineCond r t a b
      · have hpa : p = (a, b) := by
          rcases List.mem_cons.mp h2.1 with h3 | h3
          · exact h3.symm
          · exact absurd ⟨h3, h2.2⟩ h1
        subst hpa
        rw [if_pos h2, if_pos h2.2]
        exact At_Set_self hWF c (hl _ (List.mem_cons_self _ _)).1
          (hl _ (List.mem_cons_self _ _)).2
      · rw [if_neg h2]
        by_cases h3 : lineCond r t p.1 p.2
        · rw [if_pos h3]
          apply At_Set_ne
          intro hcontra
          apply h2
          refine ⟨?_, ?_⟩
          · rw [Prod.mk.injEq] at hcontra
            have : p = (a, b) := by
              rw [Prod.ext_iff]
              exact ⟨hcontra.1.symm, hcontra.2.symm⟩
            rw [← this]
            exact List.mem_cons_self _ _
          · rw [Prod.mk.injEq] at hcontra
            rw [hcontra.1, hcontra.2]
            exact h3
        · rw [if_neg h3]

/-! ## Tone mapper (`Ascii`) -/

/-- `var ASCII_CHARS = []string{...}` (70 single-character strings, ordered
dark to light; braces, apostrophe and backtick written with hex escapes). -/
def ASCII_CHARS : List String :=
  [" ", ".", "\x27", "\x60", "^", "\"", ",", ";", ":", "I", "l", "!", "i", ">", "<", "~",
   "+", "_", "-", "?", "]", "[", "\x7d", "\x7b", "1", ")", "(", "|", "\\", "/", "t", "f",
   "j", "r", "x", "n", "u", "v", "c", "z", "X", "Y", "U", "J", "C", "L", "Q", "0", "O",
   "Z", "m", "w", "q", "p", "d", "b", "k", "h", "a", "o", "*", "#", "M", "W", "&", "8",
   "%", "B", "@", "$"]

/-- `ASCII_CHARS[brightness * (len-1) / 255]`; the index is always in range
because `Brightness ≤ 255`, so the `getD` default is never used. -/
def asciiChar (c : RGBA) : String :=
  ASCII_CHARS.getD (c.Brightness * (ASCII_CHARS.length - 1) / 255) " "

/-- The string-building loops of `Ascii`: for each row of the (transformed)
grid, each cell's character repeated `len` times, then a newline. -/
def buildAsciiString (g : Grid) (len : Nat) : String :=
  g.foldl
    (fun acc row =>
      (row.foldl (fun acc2 c => acc2 ++ String.join (List.replicate len (asciiChar c))) acc)
        ++ "\n")
    ""

/-- `func (i *Image) Ascii(w, h, length uint) string`: works on a copy
(`img := *i`), resizes it to `w × h`, rotates 90° (which panics — `none` —
whenever `w ≠ h` and both are nonzero, see `rotate90Grid`), flips
vertically (dimensions are `(h, w)` at that point), then builds the string. -/
def Image.Ascii (img : Image) (w h len : Nat) : Option String :=
  (rotate90Grid w h (resizeGrid img.width img.height img.pixel w h)).map
    (fun g2 => buildAsciiString (flipVerticalGrid h w g2) len)

/-! ## Palette reducer -/

/-- Color `c` occurs among the pixels of the frame (what the `colorSet` map
of `Palette` collects while scanning `x < Dx`, `y < Dy`). -/
def OccursIn (img : Image) (c : RGBA) : Prop :=
  ∃ x, x < img.width ∧ ∃ y, y < img.height ∧ img.At x y = c

instance (img : Image) (c : RGBA) : Decidable (OccursIn img c) := by
  unfold OccursIn
  infer_instance

/-- The truncation step of `Palette`:
`if len(colors) > limit { colors = colors[:limit] }`.  The list `colors` is
an enumeration of the distinct-color set in the (unspecified) iteration
order of the Go map; theorems quantify over every duplicate-free
enumeration. -/
def paletteTrunc (colors : List RGBA) (limit : Nat) : List RGBA :=
  if limit < colors.length then colors.take limit else colors

/-! ## A heap model for the aliasing in `Ascii` (claim C10)

`Image.Pixel` is a Go slice, i.e. a reference into a heap.  To state that
`Ascii` never mutates its receiver we make the heap explicit: a `Store` is
a list of grids, an `ImgRef` is the `Image` struct with the `Pixel` slice
replaced by an index into the store.  `img := *i` copies the struct, so the
copy initially shares the receiver's grid; `Resize` and `Rotate90` build a
fresh grid and rebind the copy's slice (fresh store index), while
`FlipVertical` writes through the copy's slice in place (a store update at
its index). -/

structure ImgRef where
  width : Nat
  height : Nat
  ref : Nat
deriving DecidableEq, Repr

abbrev Store := List Grid

def readRef (s : Store) (r : Nat) : Grid := s.getD r []

/-- `Ascii` on the heap model.  Steps: `img := *i` (same `ref`);
`img.Resize(w, h)` allocates the resized grid at a fresh index `s.length`;
`img.Rotate90()` either panics (store left as is, result `none`) or
allocates the rotated grid at the next fresh index; `img.FlipVertical()`
mutates that fresh grid in place (`List.set` at index `s.length + 1`);
finally the string is built.  The receiver's index `i.ref` is never
written. -/
def AsciiS (s : Store) (i : ImgRef) (w h len : Nat) : Store × Option String :=
  match rotate90Grid w h (resizeGrid i.width i.height (readRef s i.ref) w h) with
  | none => (s ++ [resizeGrid i.width i.height (readRef s i.ref) w h], none)
  | some g2 =>
      ((s ++ [resizeGrid i.width i.height (readRef s i.ref) w h] ++ [g2]).set
          (s.length + 1) (flipVerticalGrid h w g2),
       some (buildAsciiString (flipVerticalGrid h w g2) len))

/-! ## Remaining auxiliary lemmas for the claim theorems -/

theorem round_foldl_WF (px : Nat) :
    ∀ (l : List (Nat × Nat)) {acc : Image}, acc.WF →
      (l.foldl (fun acc p => roundStep acc px p.1 p.2) acc).WF := by
  intro l
  induction l with
  | nil => intro acc h; exact h
  | cons p t ih =>
    intro acc h
    rw [List.foldl_cons]
    exact ih (roundStep_WF h px p.1 p.2)

theorem lineCond_degenerate (x y : Nat) :
    lineCond ⟨0, 0, 0, 0⟩ 4 x y ↔ x * x + y * y ≤ 4 := by
  unfold lineCond pointToLineDistSq
  norm_num
  constructor
  · intro h2
    exact_mod_cast h2
  · intro h2
    exact_mod_cast h2

/-! ## Claim theorems -/

/-- C1: for every source pixel with alpha 255 whose destination coordinate
`(o.W + x, o.H + y)` is inside the destination's bounds, `Overlay` writes
exactly the source pixel (including its alpha) at that destination pixel,
for every destination alpha (0, 255 or partial — in the partial case the
blend runs with factor `255/255 = 1` and reproduces the source color
exactly). -/
theorem overlay_opaque_source (dst src : Image) (o : Offset) (x y : Nat)
    (hd : dst.WF) (hs : src.WF)
    (hx : x < src.width) (hy : y < src.height)
    (ha : (src.At x y).A = 255)
    (hdx : o.W + x < dst.width) (hdy : o.H + y < dst.height) :
    (dst.Overlay src o).At (o.W + x) (o.H + y) = src.At x y := by
  have hxlen : x < src.pixel.length := by rw [hs.length]; exact hx
  have hylen : y < (src.pixel.getD x []).length := by rw [hs.col_length hx]; exact hy
  have hmem : (x, y) ∈ gridCells src.pixel := mem_gridCells.mpr ⟨hxlen, hylen⟩
  obtain ⟨l1, l2, hsplit, hnot⟩ := exists_last_split hmem
  unfold Image.Overlay
  rw [hsplit, List.foldl_append, List.foldl_cons]
  have hl2 : ∀ p ∈ l2, ¬(o.W + p.1 = o.W + x ∧ o.H + p.2 = o.H + y) := by
    intro p hp hcon
    have hp1 : p.1 = x := by omega
    have hp2 : p.2 = y := by omega
    apply hnot
    have hpxy : p = (x, y) := by rw [Prod.ext_iff]; exact ⟨hp1, hp2⟩
    rw [← hpxy]
    exact hp
  rw [overlay_foldl_At_untouched src o _ _ l2 _ hl2]
  set A := l1.foldl (overlayStep src o) dst with hA
  have hAWF : A.WF := overlay_foldl_WF src o l1 hd
  have hAw : A.width = dst.width := overlay_foldl_width src o l1 dst
  have hAh : A.height = dst.height := overlay_foldl_height src o l1 dst
  show (A.Set (o.W + x) (o.H + y)
      (if (src.At x y).A = 255 ∧ (A.At (o.W + x) (o.H + y)).A = 255 then src.At x y
       else if (src.At x y).A = 255 ∧ (A.At (o.W + x) (o.H + y)).A = 0 then src.At x y
       else if (src.At x y).A = 0 ∧ (A.At (o.W + x) (o.H + y)).A = 255 then
         A.At (o.W + x) (o.H + y)
       else blend (A.At (o.W + x) (o.H + y)) (src.At x y))).At (o.W + x) (o.H + y)
    = src.At x y
  rw [At_Set_self hAWF _ (by rw [hAw]; exact hdx) (by rw [hAh]; exact hdy)]
  by_cases h1 : (src.At x y).A = 255 ∧ (A.At (o.W + x) (o.H + y)).A = 255
  · rw [if_pos h1]
  · rw [if_neg h1]
    by_cases h2 : (src.At x y).A = 255 ∧ (A.At (o.W + x) (o.H + y)).A = 0
    · rw [if_pos h2]
    · rw [if_neg h2]
      have h3 : ¬((src.At x y).A = 0 ∧ (A.At (o.W + x) (o.H + y)).A = 255) := by
        intro hcon
        rw [ha] at hcon
        exact absurd hcon.1 (by omega)
      rw [if_neg h3]
      exact blend_opaque _ _ ha

/-- Witness for C1: a 1×1 opaque source `(5,6,7,255)` pasted at offset
`(0,0)` onto a 1×1 destination with partial alpha 99 yields the source
pixel. -/
theorem overlay_opaque_source_witness :
    ((NewImage 1 1 ⟨9, 8, 7, 99⟩).Overlay (NewImage 1 1 ⟨5, 6, 7, 255⟩)
        ⟨0, 0⟩).At (0 + 0) (0 + 0)
      = (NewImage 1 1 ⟨5, 6, 7, 255⟩).At 0 0 :=
  overlay_opaque_source (NewImage 1 1 ⟨9, 8, 7, 99⟩) (NewImage 1 1 ⟨5, 6, 7, 255⟩)
    ⟨0, 0⟩ 0 0 (by decide) (by decide) (by decide) (by decide) (by decide)
    (by decide) (by decide)

/-- C3: out-of-range `At` returns transparent black and out-of-range `Set`
returns the image unchanged (hence equal width, height and every pixel);
both are total. -/
theorem at_set_out_of_range (img : Image) (x y : Nat) (c : RGBA)
    (h : img.width ≤ x ∨ img.height ≤ y) :
    img.At x y = transparent ∧ img.Set x y c = img := by
  have hguard : ¬(x < img.width ∧ y < img.height) := by
    rintro ⟨h1, h2⟩
    rcases h with h | h <;> omega
  constructor
  · unfold Image.At atG
    rw [if_neg hguard]
  · unfold Image.Set
    rw [if_neg hguard]

/-- Witness for C3 at a 1×1 image and coordinate (5, 0). -/
theorem at_set_out_of_range_witness :
    (Image.mk 1 1 [[⟨3, 3, 3, 3⟩]]).At 5 0 = transparent ∧
    (Image.mk 1 1 [[⟨3, 3, 3, 3⟩]]).Set 5 0 ⟨1, 1, 1, 1⟩ = Image.mk 1 1 [[⟨3, 3, 3, 3⟩]] :=
  at_set_out_of_range (Image.mk 1 1 [[⟨3, 3, 3, 3⟩]]) 5 0 ⟨1, 1, 1, 1⟩
    (Or.inl (by decide))

/-- C4: `Resize` to positive dimensions `(w, h)` produces a `w × h` buffer
whose pixel `(x, y)` is the source pixel at `(x*old_w/w, y*old_h/h)`
(integer floor division); the read goes through the bounds-checked getter,
so out-of-range source coordinates give transparent black. -/
theorem resize_nearest_neighbor (img : Image) (_hWF : img.WF) (w h : Nat)
    (_hw : 0 < w) (_hh : 0 < h) :
    (img.Resize w h).width = w ∧ (img.Resize w h).height = h ∧
    ∀ x y, x < w → y < h →
      (img.Resize w h).At x y = img.At (x * img.width / w) (y * img.height / h) := by
  refine ⟨rfl, rfl, ?_⟩
  intro x y hx hy
  show atG w h (resizeGrid img.width img.height img.pixel w h) x y
    = img.At (x * img.width / w) (y * img.height / h)
  unfold atG resizeGrid
  rw [if_pos ⟨hx, hy⟩, getD_map_range _ _ w x hx, getD_map_range _ _ h y hy]
  rfl

/-- Witness for C4: a 2×1 buffer resized to 4×1; destination pixel (3, 0)
reads source pixel `(3*2/4, 0) = (1, 0)`. -/
theorem resize_nearest_neighbor_witness :
    ((Image.mk 2 1 [[⟨10, 0, 0, 255⟩], [⟨20, 0, 0, 255⟩]]).Resize 4 1).At 3 0
      = (Image.mk 2 1 [[⟨10, 0, 0, 255⟩], [⟨20, 0, 0, 255⟩]]).At
          (3 * (Image.mk 2 1 [[⟨10, 0, 0, 255⟩], [⟨20, 0, 0, 255⟩]]).width / 4)
          (0 * (Image.mk 2 1 [[⟨10, 0, 0, 255⟩], [⟨20, 0, 0, 255⟩]]).height / 1) :=
  (resize_nearest_neighbor (Image.mk 2 1 [[⟨10, 0, 0, 255⟩], [⟨20, 0, 0, 255⟩]])
    (by decide) 4 1 (by omega) (by omega)).2.2 3 0 (by omega) (by omega)

/-- C5: `Line` from (0,0) to (0,0) with thickness 4 degenerates to the
point-distance branch of `pointToLineDistance`: exactly the in-bounds
pixels with `x² + y² ≤ 4` (Euclidean distance to the origin at most 2) are
set to `c`; every other pixel is unchanged. -/
theorem line_degenerate_point (img : Image) (c : RGBA) (hWF : img.WF) :
    (img.Line ⟨0, 0, 0, 0⟩ c 4).width = img.width ∧
    (img.Line ⟨0, 0, 0, 0⟩ c 4).height = img.height ∧
    ∀ x y, (img.Line ⟨0, 0, 0, 0⟩ c 4).At x y =
      if x < img.width ∧ y < img.height ∧ x * x + y * y ≤ 4 then c
      else img.At x y := by
  refine ⟨line_foldl_width _ _ _ _ _, line_foldl_height _ _ _ _ _, ?_⟩
  intro x y
  unfold Image.Line
  have hl : ∀ p ∈ gridCells img.pixel, p.1 < img.width ∧ p.2 < img.height := by
    intro p hp
    rw [mem_gridCells] at hp
    have h1 : p.1 < img.width := by rw [← hWF.length]; exact hp.1
    have h2 : p.2 < img.height := by rw [← hWF.col_length h1]; exact hp.2
    exact ⟨h1, h2⟩
  rw [line_foldl_At _ _ _ _ _ hWF hl x y]
  have hiff : ((x, y) ∈ gridCells img.pixel ∧ lineCond ⟨0, 0, 0, 0⟩ 4 x y) ↔
      (x < img.width ∧ y < img.height ∧ x * x + y * y ≤ 4) := by
    rw [mem_gridCells, lineCond_degenerate, hWF.length]
    constructor
    · rintro ⟨⟨h1, h2⟩, h3⟩
      refine ⟨h1, ?_, h3⟩
      rw [← hWF.col_length h1]
      exact h2
    · rintro ⟨h1, h2, h3⟩
      refine ⟨⟨h1, ?_⟩, h3⟩
      rw [hWF.col_length h1]
      exact h2
  rw [if_congr hiff rfl rfl]

/-- Witness for C5: on a 3×3 buffer, pixel (1,1) (distance √2 ≤ 2) gets the
line color. -/
theorem line_degenerate_point_witness :
    ((NewImage 3 3 ⟨7, 7, 7, 7⟩).Line ⟨0, 0, 0, 0⟩ ⟨1, 2, 3, 4⟩ 4).At 1 1
      = ⟨1, 2, 3, 4⟩ := by
  have h := (line_degenerate_point (NewImage 3 3 ⟨7, 7, 7, 7⟩) ⟨1, 2, 3, 4⟩
    (by decide)).2.2 1 1
  rw [h]
  decide

/-- C8: `Round` with radius 0 is a no-op: the skip condition
`x ≥ 0 && x <= Width-0` holds for every in-grid column (and any cell it
does not cover is out of range for `Set`), so no pixel is modified and the
image is returned exactly as it was. -/
theorem round_zero_noop (img : Image) : img.Round 0 = img := by
  unfold Image.Round
  have hfold : ∀ (l : List (Nat × Nat)) (acc : Image),
      l.foldl (fun acc p => roundStep acc 0 p.1 p.2) acc = acc := by
    intro l
    induction l with
    | nil => intro acc; rfl
    | cons p t ih =>
      intro acc
      rw [List.foldl_cons, roundStep_zero, ih]
  exact hfold _ _

/-- C2 (code bug): the rotate round-trip law cannot hold because `Rotate90`
itself crashes on every non-square, non-degenerate buffer: it writes
`newPixel[y][Height-1-x]` into rows of length `Width`, so the column index
is out of range (Go: index-out-of-range panic, here `none`) as soon as
`Height ≠ Width`.  On the well-formed 1×2 buffer below, `Rotate90` fails,
and so does `Rotate90` after `RotateMinus90` (which produces a 2×1 buffer);
in neither order can the round trip complete. -/
theorem rotate90_roundtrip_crash :
    (Image.mk 1 2 [[⟨10, 20, 30, 255⟩, ⟨40, 50, 60, 255⟩]]).WF ∧
    (Image.mk 1 2 [[⟨10, 20, 30, 255⟩, ⟨40, 50, 60, 255⟩]]).Rotate90 = none ∧
    ((Image.mk 1 2 [[⟨10, 20, 30, 255⟩, ⟨40, 50, 60, 255⟩]]).RotateMinus90).Rotate90
      = none :=
  ⟨by decide, by decide, by decide⟩

/-- C6 (code bug): `Ascii` resizes to `(w, h)` and then calls `Rotate90`,
which crashes whenever `w ≠ h` (both nonzero) — so on a fully transparent
buffer `Ascii` does NOT produce the darkest-ramp string for every target
size; it panics for 2×3 (first conjunct).  For square targets the claimed
output does appear: every cell is `ASCII_CHARS[0] = " "` repeated, one
newline per row (second conjunct: 2×2 target, repeat 2). -/
theorem ascii_transparent_crash :
    (NewImage 1 1 transparent).Ascii 2 3 1 = none ∧
    (NewImage 1 1 transparent).Ascii 2 2 2 = some "    \n    \n" :=
  ⟨by decide, by decide⟩

/-- C7: for any duplicate-free enumeration `cs` of the distinct colors of a
frame (the Go map iteration order is unspecified, so we quantify over all
of them), the palette truncation returns at most `cap` colors, all
distinct, all occurring in the frame; and if the frame has exactly three
distinct colors, cap 10 keeps all 3 and cap 2 keeps exactly 2. -/
theorem palette_distinct_bounded (img : Image) (cs : List RGBA)
    (hnd : cs.Nodup) (hmem : ∀ c, c ∈ cs ↔ OccursIn img c) :
    (∀ cap : Nat, (paletteTrunc cs cap).length ≤ cap ∧ (paletteTrunc cs cap).Nodup ∧
      ∀ c ∈ paletteTrunc cs cap, OccursIn img c)
    ∧ (∀ a b d : RGBA, a ≠ b → a ≠ d → b ≠ d →
        (∀ e, OccursIn img e ↔ (e = a ∨ e = b ∨ e = d)) →
        (paletteTrunc cs 10).length = 3 ∧ (paletteTrunc cs 2).length = 2) := by
  constructor
  · intro cap
    refine ⟨?_, ?_, ?_⟩
    · unfold paletteTrunc
      split
      · rw [List.length_take]
        omega
      case isFalse hc => omega
    · unfold paletteTrunc
      split
      · exact hnd.sublist (List.take_sublist _ _)
      · exact hnd
    · intro c hc
      unfold paletteTrunc at hc
      have hcs : c ∈ cs := by
        split at hc
        · exact List.take_subset _ _ hc
        · exact hc
      exact (hmem c).mp hcs
  · intro a b d hab had hbd h3
    have hmm : ∀ e, e ∈ cs ↔ e ∈ [a, b, d] := by
      intro e
      rw [hmem e, h3 e]
      simp
    have hnd2 : ([a, b, d] : List RGBA).Nodup := by
      simp [hab, had, hbd]
    have hperm : cs.Perm [a, b, d] := (List.perm_ext_iff_of_nodup hnd hnd2).mpr hmm
    have hlen : cs.length = 3 := by rw [hperm.length_eq]; rfl
    constructor
    · unfold paletteTrunc
      rw [if_neg (by omega), hlen]
    · unfold paletteTrunc
      rw [if_pos (by omega), List.length_take, hlen]
      decide

def colA : RGBA := ⟨255, 0, 0, 255⟩
def colB : RGBA := ⟨0, 255, 0, 255⟩
def colD : RGBA := ⟨0, 0, 255, 255⟩

theorem witness_frame_occurs (e : RGBA) :
    OccursIn (Image.mk 2 2 [[colA, colB], [colA, colD]]) e ↔
      (e = colA ∨ e = colB ∨ e = colD) := by
  constructor
  · rintro ⟨x, hx, y, hy, hAt⟩
    simp only at hx hy
    interval_cases x <;> interval_cases y <;> rw [← hAt] <;> decide
  · rintro (rfl | rfl | rfl)
    · exact ⟨0, by decide, 0, by decide, by decide⟩
    · exact ⟨0, by decide, 1, by decide, by decide⟩
    · exact ⟨1, by decide, 1, by decide, by decide⟩

/-- Witness for C7: a 2×2 frame with exactly the three distinct colors
`colA, colB, colD` and the enumeration `[colA, colB, colD]`. -/
theorem palette_distinct_bounded_witness :
    (paletteTrunc [colA, colB, colD] 10).length = 3 ∧
    (paletteTrunc [colA, colB, colD] 2).length = 2 :=
  (palette_distinct_bounded (Image.mk 2 2 [[colA, colB], [colA, colD]])
      [colA, colB, colD] (by decide)
      (fun c => by
        rw [witness_frame_occurs c]
        simp)).2
    colA colB colD (by decide) (by decide) (by decide) witness_frame_occurs

/-- Counterexample for C9 (as stated): it is NOT the case that `Rotate90`
yields a (well-formed) buffer on every well-formed input: on the
well-formed 2×3 buffer below it fails with an index-out-of-range panic
(`none`), yielding no buffer at all. -/
theorem reshape_wf_cex :
    ¬ ∀ img : Image, img.WF → ∃ img2, img.Rotate90 = some img2 ∧ img2.WF := by
  intro hall
  obtain ⟨img2, heq, -⟩ := hall
    (Image.mk 2 3 [[⟨1, 1, 1, 255⟩, ⟨2, 2, 2, 255⟩, ⟨3, 3, 3, 255⟩],
                   [⟨4, 4, 4, 255⟩, ⟨5, 5, 5, 255⟩, ⟨6, 6, 6, 255⟩]])
    (by decide)
  have hnone : (Image.mk 2 3 [[⟨1, 1, 1, 255⟩, ⟨2, 2, 2, 255⟩, ⟨3, 3, 3, 255⟩],
      [⟨4, 4, 4, 255⟩, ⟨5, 5, 5, 255⟩, ⟨6, 6, 6, 255⟩]]).Rotate90 = none := by decide
  rw [hnone] at heq
  cases heq

/-- C9 (amended): `NewImage`, `Resize`, `Crop` and `RotateMinus90` always
yield a grid with exactly `width` columns of exactly `height` entries;
`Rotate90` yields such a grid whenever it completes (it panics on
non-square, non-degenerate buffers); and the in-place operations `Set`,
`Overlay`, `Line`, `Round` and `FlipVertical` preserve this invariant. -/
theorem reshape_preserves_wf :
    (∀ (w h : Nat) (c : RGBA), (NewImage w h c).WF)
  ∧ (∀ (img : Image) (w h : Nat), (img.Resize w h).WF)
  ∧ (∀ (img : Image) (r : Rect), (img.Crop r).WF)
  ∧ (∀ img : Image, img.RotateMinus90.WF)
  ∧ (∀ (img img2 : Image), img.Rotate90 = some img2 → img2.WF)
  ∧ (∀ (img : Image) (x y : Nat) (c : RGBA), img.WF → (img.Set x y c).WF)
  ∧ (∀ (dst src : Image) (o : Offset), dst.WF → (dst.Overlay src o).WF)
  ∧ (∀ (img : Image) (r : Rect) (c : RGBA) (t : ℚ), img.WF → (img.Line r c t).WF)
  ∧ (∀ (img : Image) (px : Nat), img.WF → (img.Round px).WF)
  ∧ (∀ img : Image, img.WF → img.FlipVertical.WF) :=
  ⟨WF_NewImage, WF_Resize, WF_Crop, WF_RotateMinus90, WF_Rotate90,
   fun _ x y c h => WF_Set h x y c,
   fun _ src o h => overlay_foldl_WF src o _ h,
   fun _ r c t h => line_foldl_WF r t c _ h,
   fun _ px h => round_foldl_WF px _ h,
   fun _ h => WF_FlipVertical h⟩

/-- Witness for C9 (amended): the `Rotate90`-completion and
`Set`-preservation conjuncts applied at concrete inputs. -/
theorem reshape_preserves_wf_witness :
    (Image.mk 2 2 [[⟨3, 0, 0, 255⟩, ⟨1, 0, 0, 255⟩],
                   [⟨4, 0, 0, 255⟩, ⟨2, 0, 0, 255⟩]]).WF ∧
    ((Image.mk 1 1 [[⟨5, 5, 5, 5⟩]]).Set 0 0 ⟨6, 6, 6, 6⟩).WF :=
  ⟨reshape_preserves_wf.2.2.2.2.1
      (Image.mk 2 2 [[⟨1, 0, 0, 255⟩, ⟨2, 0, 0, 255⟩],
                     [⟨3, 0, 0, 255⟩, ⟨4, 0, 0, 255⟩]])
      (Image.mk 2 2 [[⟨3, 0, 0, 255⟩, ⟨1, 0, 0, 255⟩],
                     [⟨4, 0, 0, 255⟩, ⟨2, 0, 0, 255⟩]])
      (by decide),
   reshape_preserves_wf.2.2.2.2.2.1 (Image.mk 1 1 [[⟨5, 5, 5, 5⟩]]) 0 0 ⟨6, 6, 6, 6⟩
      (by decide)⟩

/-- C10: `Ascii` never modifies its receiver.  In the heap model, the
receiver's grid (at store index `i.ref`) is identical before and after the
call, for every store, receiver, target size and repeat count — including
the case where the internal `Rotate90` panics.  The struct fields
`Width`/`Height` of the receiver are copied by value into the working copy
and never written back, so only the shared grid needs the proof. -/
theorem ascii_preserves_receiver (s : Store) (i : ImgRef) (w h len : Nat)
    (href : i.ref < s.length) :
    readRef (AsciiS s i w h len).1 i.ref = readRef s i.ref := by
  cases hr : rotate90Grid w h (resizeGrid i.width i.height (readRef s i.ref) w h) with
  | none =>
    simp only [AsciiS, hr]
    unfold readRef
    exact getD_append_left _ _ _ _ href
  | some g2 =>
    simp only [AsciiS, hr]
    unfold readRef
    rw [getD_set_ne _ _ _ (s.length + 1) i.ref (by omega)]
    rw [getD_append_left _ _ _ i.ref (by simp; omega)]
    exact getD_append_left _ _ _ _ href

/-- Witness for C10: a one-grid store holding a 1×1 image; after
`AsciiS` the grid at index 0 is unchanged. -/
theorem ascii_preserves_receiver_witness :
    readRef (AsciiS [[[⟨1, 2, 3, 4⟩]]] ⟨1, 1, 0⟩ 1 1 1).1 0
      = readRef [[[⟨1, 2, 3, 4⟩]]] 0 :=
  ascii_preserves_receiver [[[⟨1, 2, 3, 4⟩]]] ⟨1, 1, 0⟩ 1 1 1 (by decide)

end Picrocess
